import Mathlib

/-!
Verification of the note-store subsystem of the side-notes browser
extension: the persistent memo store (`src/utils/storage.ts`), the
export and import handlers of the options page, the background badge/menu
updater, the autosave debounce of `useMemos`, and the list-refresh
selection policy.

The store is `chrome.storage.local` (or `localStorage`) holding a single
key `memos : Record<string, Memo>`.  A JavaScript object with
non-integer-like string keys enumerates its properties in insertion
order, assignment to an existing key keeps its position, and `delete`
removes it; we embed `MemoStore` as an association list with exactly
those semantics.  `Array.prototype.sort` is guaranteed stable, which we
model with `List.mergeSort`.  Timestamps (`Date.now()`, milliseconds)
are embedded as `Nat` and passed explicitly where the code reads the
clock.
-/

/-- Memo record, from `src/types.ts` (`interface Memo`). -/
structure Memo where
  id : String
  title : String
  content : String
  domain : String
  url : String
  isUrlSpecific : Bool
  createdAt : Nat
  updatedAt : Nat
deriving Repr, DecidableEq

/-- Store layout, from `src/types.ts`: `MemoStore = Record<string, Memo>`,
keyed by id, embedded as an insertion-ordered association list. -/
abbrev MemoStore := List (String × Memo)

/-- JavaScript property assignment `obj[k] = v`: replaces the value in
place when the key exists, otherwise appends the key at the end. -/
def storeSet (s : MemoStore) (k : String) (v : Memo) : MemoStore :=
  if (List.any s fun p => p.1 == k) then
    List.map (fun p => if p.1 == k then (k, v) else p) s
  else
    s ++ [(k, v)]

/-- JavaScript property read `obj[k]`: the value at key `k`, if any. -/
def storeGet (s : MemoStore) (k : String) : Option Memo :=
  Option.map Prod.snd (List.find? (fun p => p.1 == k) s)

/-- JavaScript `delete obj[k]`: removes the key if present, no-op
otherwise (never an error). -/
def storeDelete (s : MemoStore) (k : String) : MemoStore :=
  List.filter (fun p => !(p.1 == k)) s

/-- JavaScript `Object.values(obj)` in property-enumeration order. -/
def storeValues (s : MemoStore) : List Memo :=
  List.map Prod.snd s

/-- The function `saveMemo` of `src/utils/storage.ts`: read the `memos`
map, run `memos[memo.id] = memo`, write it back (the extension and the
localStorage branches perform the same map update). -/
def saveMemo (s : MemoStore) (memo : Memo) : MemoStore :=
  storeSet s memo.id memo

/-- Comparator of `getMemosByDomain`: JavaScript
`(a, b) => b.updatedAt - a.updatedAt` as a `le` relation (`a` may come
before `b` iff the comparator is `<= 0`). -/
def updatedDesc (a b : Memo) : Bool :=
  b.updatedAt ≤ a.updatedAt

/-- The function `getMemosByDomain` of `src/utils/storage.ts`:
`Object.values(memos).filter(m => m.domain === domain)
  .sort((a, b) => b.updatedAt - a.updatedAt)` (a stable sort). -/
def getMemosByDomain (s : MemoStore) (domain : String) : List Memo :=
  List.mergeSort
    (List.filter (fun m => m.domain == domain) (storeValues s))
    updatedDesc

/-- The function `getAllMemos` of `src/utils/storage.ts`:
`Object.values(memos)`, unsorted. -/
def getAllMemos (s : MemoStore) : List Memo :=
  storeValues s

/-- The function `deleteMemo` of `src/utils/storage.ts`:
`delete memos[id]` then write back. -/
def deleteMemo (s : MemoStore) (id : String) : MemoStore :=
  storeDelete s id

/-- JavaScript truthiness of a nullable string: `null` and `""` are falsy. -/
def jsTruthy : Option String → Bool
  | none => false
  | some s => !s.isEmpty

/-- JavaScript `x || d` on a nullable string `x`: the string when truthy,
otherwise the default `d`. -/
def jsOrString (x : Option String) (d : String) : String :=
  match x with
  | some s => if s.isEmpty then d else s
  | none => d

/-- One element of a parsed import array.  Each field is `some` when the
JSON element carries that field with the matching JavaScript type, `none`
when the field is missing (or of another type, which the handler treats
the same way via `typeof` checks). -/
structure RawMemo where
  id : Option String
  title : Option String
  content : Option String
  domain : Option String
  url : Option String
  isUrlSpecific : Option Bool
  createdAt : Option Nat
  updatedAt : Option Nat
deriving Repr, DecidableEq

/-- Validation of one import element, from `options.tsx`
`handleImportFile`: `typeof m.id === 'string' && typeof m.domain ===
'string' && typeof m.content === 'string'`. -/
def rawValid (m : RawMemo) : Bool :=
  m.id.isSome && m.domain.isSome && m.content.isSome

/-- The `sanitizedMemo` built by `handleImportFile` for a validated
element (`now` is `Date.now()`): `title: m.title || 'Untitled'`, `url:
typeof m.url === 'string' ? m.url : ''`, `isUrlSpecific:
!!m.isUrlSpecific`, timestamps defaulted to `now` when not numbers. -/
def sanitizeRaw (now : Nat) (m : RawMemo) : Memo :=
  { id := m.id.getD ""
    title := jsOrString m.title "Untitled"
    content := m.content.getD ""
    domain := m.domain.getD ""
    url := m.url.getD ""
    isUrlSpecific := m.isUrlSpecific.getD false
    createdAt := m.createdAt.getD now
    updatedAt := m.updatedAt.getD now }

/-- The import loop of `handleImportFile`: for each array element, if it
validates, `saveMemo` its sanitized form and increment `count`;
otherwise skip it and continue with the rest of the batch.  Returns the
resulting store and the reported success count. -/
def importMemos (now : Nat) (json : List RawMemo) (s : MemoStore) :
    MemoStore × Nat :=
  List.foldl
    (fun acc m =>
      if rawValid m then (saveMemo acc.1 (sanitizeRaw now m), acc.2 + 1)
      else acc)
    (s, 0) json

/-- The function `handleExport` of `options.tsx`: the downloaded JSON is
`JSON.stringify(await getAllMemos())`, an array of full memo records. -/
def exportMemos (s : MemoStore) : List Memo :=
  getAllMemos s

/-- Parsing a serialized full memo record back from JSON: every field is
present with its own type. -/
def memoToRaw (m : Memo) : RawMemo :=
  { id := some m.id
    title := some m.title
    content := some m.content
    domain := some m.domain
    url := some m.url
    isUrlSpecific := some m.isUrlSpecific
    createdAt := some m.createdAt
    updatedAt := some m.updatedAt }

/-- Export followed by import of the exported array into an empty store
(`now` is the import-time clock). -/
def exportImportRoundTrip (now : Nat) (s : MemoStore) : MemoStore :=
  (importMemos now (List.map memoToRaw (exportMemos s)) []).1

/-- The function `updateBadgeAndMenu` of the background script, as the
effect it produces for a tab with the given URL: `none` when `!url`
makes it return early, otherwise `some (badgeText, badgeColor,
menuTitle)` where `badgeColor` is only set in the positive branch. -/
def updateBadgeAndMenu (s : MemoStore) (url : String) :
    Option (String × Option String × String) :=
  if url.isEmpty then none
  else
    let matchCount :=
      (List.filter (fun m => m.url == url) (storeValues s)).length
    if matchCount > 0 then
      some (toString matchCount, some "#22c55e", "Open Note for this Page")
    else
      some ("", none, "Create Note for this Page")

/-- Display title of a new memo, from `createMemo` in `useMemos.ts`:
`'New Note'`, or `'Note: ' + title` when `title` is truthy. -/
def displayTitle (title : Option String) : String :=
  if jsTruthy title then "Note: " ++ title.getD "" else "New Note"

/-- The YAML frontmatter seeded into a new memo's content by
`createMemo` (`formattedDate` stands for the formatted `new Date()`). -/
def frontmatter (url : String) (title : Option String)
    (formattedDate : String) : String :=
  "---\nURL: " ++ url ++ "\ntitle: " ++ jsOrString title "" ++
    "\ncreated_at: " ++ formattedDate ++ "\n---\n\n"

/-- The function `createMemo` of `useMemos.ts`: returns early when
`!domain || !url`; otherwise builds the new record (`id` is the fresh
`uuidv4()`, `createdAt` and `updatedAt` are two successive `Date.now()`
reads `tc` and `tu`) and saves it.  Returns the updated store and the
created record. -/
def createMemo (domain url title : Option String)
    (formattedDate newId : String) (tc tu : Nat) (s : MemoStore) :
    MemoStore × Option Memo :=
  if !jsTruthy domain || !jsTruthy url then (s, none)
  else
    let newMemo : Memo :=
      { id := newId
        title := displayTitle title
        content := frontmatter (url.getD "") title formattedDate
        domain := domain.getD ""
        url := url.getD ""
        isUrlSpecific := false
        createdAt := tc
        updatedAt := tu }
    (saveMemo s newMemo, some newMemo)

/-- Title edit commit, from `App.tsx` `handleTitleChange`:
`{ ...activeMemo, title: e.target.value, updatedAt: Date.now() }`. -/
def handleTitleChange (m : Memo) (newTitle : String) (now : Nat) : Memo :=
  { m with title := newTitle, updatedAt := now }

/-- Content edit commit, from `App.tsx` `handleContentChange`:
`{ ...activeMemo, content: val, updatedAt: Date.now() }`. -/
def handleContentChange (m : Memo) (newContent : String) (now : Nat) : Memo :=
  { m with content := newContent, updatedAt := now }

/-- The debounce of `updateMemo` in `useMemos.ts`, run over a list of
edit events `(time, memo)` in time order.  The state is the pending
`setTimeout`: at most one exists (`saveTimeoutRef` holds a single
handle).  An edit first runs `clearTimeout` on the pending timer — but a
timer whose deadline has already passed fired and issued its save — then
schedules a new save 1000 ms later.  The result is the list of
`(fire time, saved memo)` pairs of the saves that actually run. -/
def debounceRun : Option (Nat × Memo) → List (Nat × Memo) → List (Nat × Memo)
  | none, [] => []
  | some (d, dm), [] => [(d, dm)]
  | none, (t, m) :: rest => debounceRun (some (t + 1000, m)) rest
  | some (d, dm), (t, m) :: rest =>
    if d ≤ t then (d, dm) :: debounceRun (some (t + 1000, m)) rest
    else debounceRun (some (t + 1000, m)) rest

/-- Saves produced by a full edit sequence starting with no pending
timer. -/
def debounceSaves (edits : List (Nat × Memo)) : List (Nat × Memo) :=
  debounceRun none edits

/-- Modelled from the spec: one save per quiescence period — an edit
produces a save, carrying its state, 1000 ms after it, exactly when no
further edit arrives within those 1000 ms. -/
def quiescentSaves : List (Nat × Memo) → List (Nat × Memo)
  | [] => []
  | [(t, m)] => [(t + 1000, m)]
  | (t, m) :: (t', m') :: rest =>
    if t + 1000 ≤ t' then (t + 1000, m) :: quiescentSaves ((t', m') :: rest)
    else quiescentSaves ((t', m') :: rest)

/-- View mode of the memo list (`viewMode : 'domain' | 'all'`). -/
inductive ViewMode where
  | domainScoped
  | all
deriving DecidableEq

/-- The list computed by `fetchMemos` in `useMemos.ts`: for `'all'`,
`getAllMemos` sorted by `updatedAt` descending; for the domain view,
`getMemosByDomain(domain)` when `domain` is truthy, else `[]`. -/
def fetchList (vm : ViewMode) (domain : Option String) (s : MemoStore) :
    List Memo :=
  match vm with
  | .all => List.mergeSort (getAllMemos s) updatedDesc
  | .domainScoped =>
    match domain with
    | some d => if d.isEmpty then [] else getMemosByDomain s d
    | none => []

/-- Panel list state of `useMemos`: the rendered list and the selected
id (`activeMemoId`, a nullable string). -/
structure PanelState where
  memos : List Memo
  activeMemoId : Option String
deriving Repr, DecidableEq

/-- JavaScript falsiness of `activeMemoId` (`!activeMemoId`). -/
def jsFalsyId : Option String → Bool
  | none => true
  | some s => s.isEmpty

/-- The refresh commit of `fetchMemos`: `setMemos(loaded)` and, when
`loaded.length > 0 && !activeMemoId`, `setActiveMemoId(loaded[0].id)`;
otherwise `activeMemoId` is left untouched. -/
def refreshPanel (st : PanelState) (loaded : List Memo) : PanelState :=
  { memos := loaded
    activeMemoId :=
      match loaded with
      | [] => st.activeMemoId
      | m0 :: _ =>
        if jsFalsyId st.activeMemoId then some m0.id else st.activeMemoId }

/-- The derived selection of `useMemos`:
`memos.find(m => m.id === activeMemoId) || null`. -/
def activeMemo (st : PanelState) : Option Memo :=
  match st.activeMemoId with
  | none => none
  | some aid => List.find? (fun m => m.id == aid) st.memos

/-- Replaying a list of saves against the empty store (a sequence of
`saveMemo` calls). -/
def runSaves (ms : List Memo) : MemoStore :=
  List.foldl saveMemo [] ms

/-- The last record saved under a given id during a sequence of saves. -/
def lastSave (ms : List Memo) (id : String) : Option Memo :=
  match ms with
  | [] => none
  | m :: rest =>
    match lastSave rest id with
    | some r => some r
    | none => if m.id == id then some m else none

/-- Per-record part of the spec's store invariant: non-empty id,
`updatedAt >= createdAt`, non-empty domain. -/
def memoInvariant (m : Memo) : Prop :=
  m.id ≠ "" ∧ m.createdAt ≤ m.updatedAt ∧ m.domain ≠ ""

instance (m : Memo) : Decidable (memoInvariant m) := by
  unfold memoInvariant
  infer_instance

/-- The spec's store invariant: unique ids and `memoInvariant` for every
persisted record. -/
def storeInvariant (s : MemoStore) : Prop :=
  (List.map Memo.id (storeValues s)).Nodup ∧
    ∀ m ∈ storeValues s, memoInvariant m

instance (s : MemoStore) : Decidable (storeInvariant s) := by
  unfold storeInvariant
  infer_instance

/-- Well-formedness of the store representation: every entry is keyed by
its record's id and keys are unique.  Both hold for every store the code
builds, since all writes go through `memos[memo.id] = memo`. -/
def storeWF (s : MemoStore) : Prop :=
  (∀ p ∈ s, p.1 = p.2.id) ∧ (List.map Prod.fst s).Nodup

/-- Example record used to instantiate the theorems on concrete input. -/
def exMemoA : Memo :=
  { id := "a", title := "A", content := "ca", domain := "example.com"
    url := "https://example.com/a", isUrlSpecific := false
    createdAt := 1, updatedAt := 5 }

/-- Second example record, tied with `exMemoA` on `updatedAt`. -/
def exMemoB : Memo :=
  { id := "b", title := "B", content := "cb", domain := "example.com"
    url := "https://example.com/b", isUrlSpecific := false
    createdAt := 2, updatedAt := 5 }

/-- Example store holding the two example records. -/
def exStore : MemoStore := [("a", exMemoA), ("b", exMemoB)]

instance (s : MemoStore) : Decidable (storeWF s) := by
  unfold storeWF
  infer_instance

/-- Valid import element used as concrete witness input. -/
def rawGood : RawMemo :=
  { id := some "g", title := none, content := some "c", domain := some "d"
    url := none, isUrlSpecific := none, createdAt := none
    updatedAt := none }

/-- Import element missing `domain`, used as concrete witness input. -/
def rawNoDomain : RawMemo :=
  { id := some "h", title := some "T", content := some "c2"
    domain := none, url := none, isUrlSpecific := none
    createdAt := none, updatedAt := none }

/-- Record with all fields populated (all of them strings, booleans or
numbers of the right type) whose title is the empty string. -/
def emptyTitleMemo : Memo :=
  { id := "a", title := "", content := "c", domain := "d", url := "u"
    isUrlSpecific := false, createdAt := 0, updatedAt := 0 }

/-- Store holding only `emptyTitleMemo`. -/
def emptyTitleStore : MemoStore := [("a", emptyTitleMemo)]

/-- Import element that validates (id, domain, content are strings) but
whose domain is the empty string. -/
def badDomainRaw : RawMemo :=
  { id := some "x", title := none, content := some "c", domain := some ""
    url := none, isUrlSpecific := none, createdAt := none
    updatedAt := none }

lemma updatedDesc_trans (a b c : Memo) :
    updatedDesc a b → updatedDesc b c → updatedDesc a c := by
  simp only [updatedDesc, decide_eq_true_eq]
  omega

lemma updatedDesc_total (a b : Memo) :
    updatedDesc a b || updatedDesc b a := by
  simp only [updatedDesc, Bool.or_eq_true, decide_eq_true_eq]
  omega

lemma find?_map_setEntry_ne (t : List (String × Memo)) (k k' : String)
    (v : Memo) (h : k' ≠ k) :
    List.find? (fun p => p.1 == k')
        (List.map (fun p => if p.1 == k then (k, v) else p) t) =
      List.find? (fun p => p.1 == k') t := by
  induction t with
  | nil => rfl
  | cons q t ih =>
    by_cases hq : q.1 = k
    · have : ¬ (k == k') = true := by simp [beq_iff_eq]; exact fun e => h e.symm
      have : ¬ (q.1 == k') = true := by simp [beq_iff_eq, hq]; exact fun e => h e.symm
      simp_all [List.find?_cons, beq_iff_eq, hq]
    · by_cases hk' : q.1 = k'
      · simp [List.find?_cons, beq_iff_eq, hq, hk', h]
      · simp_all [List.find?_cons, beq_iff_eq, hq, hk']

lemma find?_map_setEntry_self (t : List (String × Memo)) (k : String)
    (v : Memo) (h : (List.any t fun p => p.1 == k) = true) :
    List.find? (fun p => p.1 == k)
        (List.map (fun p => if p.1 == k then (k, v) else p) t) =
      some (k, v) := by
  induction t with
  | nil => simp at h
  | cons q t ih =>
    by_cases hq : q.1 = k
    · simp [List.find?_cons, beq_iff_eq, hq]
    · simp only [List.any_cons, Bool.or_eq_true, beq_iff_eq] at h
      rcases h with h | h

      · exact absurd h hq
      · simp_all [List.find?_cons, beq_iff_eq, hq]

lemma find?_append_single_self (t : List (String × Memo)) (k : String)
    (v : Memo) (h : ¬ (List.any t fun p => p.1 == k) = true) :
    List.find? (fun p => p.1 == k) (t ++ [(k, v)]) = some (k, v) := by
  induction t with
  | nil => simp [List.find?_cons]
  | cons q t ih =>
    simp only [List.any_cons, Bool.or_eq_true, beq_iff_eq] at h
    push_neg at h
    simp_all [List.find?_cons, beq_iff_eq, h.1]

lemma find?_append_single_ne (t : List (String × Memo)) (k k' : String)
    (v : Memo) (h : k' ≠ k) :
    List.find? (fun p => p.1 == k') (t ++ [(k, v)]) =
      List.find? (fun p => p.1 == k') t := by
  induction t with
  | nil =>
    have : ¬ (k == k') = true := by simp [beq_iff_eq]; exact fun e => h e.symm
    simp_all [List.find?_cons]
  | cons q t ih =>
    by_cases hq : q.1 = k'
    · simp [List.find?_cons, beq_iff_eq, hq]
    · simp_all [List.find?_cons, beq_iff_eq, hq]

lemma storeGet_storeSet (s : MemoStore) (k k' : String) (v : Memo) :
    storeGet (storeSet s k v) k' =
      if k' = k then some v else storeGet s k' := by
  unfold storeGet storeSet
  by_cases hmem : (List.any s fun p => p.1 == k) = true
  · rw [if_pos hmem]
    by_cases h : k' = k
    · subst h
      rw [find?_map_setEntry_self s k' v hmem]
      simp
    · rw [find?_map_setEntry_ne s k k' v h]
      simp [h]
  · rw [if_neg hmem]
    by_cases h : k' = k
    · subst h
      rw [find?_append_single_self s k' v hmem]
      simp
    · rw [find?_append_single_ne s k k' v h]
      simp [h]

lemma storeGet_eq_none_iff (s : MemoStore) (k : String) :
    storeGet s k = none ↔ (List.any s fun p => p.1 == k) = false := by
  induction s with
  | nil => simp [storeGet]
  | cons q t ih =>
    by_cases hq : q.1 = k
    · simp [storeGet, List.find?_cons, beq_iff_eq, hq]
    · simp_all [storeGet, List.find?_cons, beq_iff_eq, hq]

lemma isEmpty_eq_false_of_ne (s : String) (h : s ≠ "") :
    s.isEmpty = false := by
  rw [Bool.eq_false_iff]
  intro h'
  exact h ((String.isEmpty_iff s).mp h')

lemma pairwise_updatedDesc_of_mergeSort (l : List Memo) :
    List.Pairwise (fun a b => b.updatedAt ≤ a.updatedAt)
      (List.mergeSort l updatedDesc) := by
  have h :=
    @List.sorted_mergeSort Memo updatedDesc updatedDesc_trans
      updatedDesc_total l
  exact h.imp (by simp [updatedDesc])

/-- C1: for every domain `d` and store contents, `getMemosByDomain d`
returns exactly the records whose `domain` equals `d` (a permutation of
the filtered `Object.values`), sorted by `updatedAt` descending, with
ties broken stably: any two tied records keep the relative order they
have in the store's enumeration. -/
theorem getMemosByDomain_spec (s : MemoStore) (d : String) :
    List.Perm (getMemosByDomain s d)
        (List.filter (fun m => m.domain == d) (getAllMemos s)) ∧
    List.Pairwise (fun a b => b.updatedAt ≤ a.updatedAt)
        (getMemosByDomain s d) ∧
    (∀ a b : Memo,
      List.Sublist [a, b]
          (List.filter (fun m => m.domain == d) (getAllMemos s)) →
      a.updatedAt = b.updatedAt →
      List.Sublist [a, b] (getMemosByDomain s d)) := by
  refine ⟨?_, ?_, ?_⟩
  · exact List.mergeSort_perm _ _
  · exact pairwise_updatedDesc_of_mergeSort _
  · intro a b hsub htie
    exact List.pair_sublist_mergeSort updatedDesc_trans updatedDesc_total
      (by simp [updatedDesc, htie]) hsub

lemma map_fst_storeSet_of_mem (s : MemoStore) (k : String) (v : Memo)
    (h : (List.any s fun p => p.1 == k) = true) :
    List.map Prod.fst (storeSet s k v) = List.map Prod.fst s := by
  unfold storeSet
  rw [if_pos h, List.map_map]
  apply List.map_congr_left
  intro p hp
  by_cases hk : p.1 = k
  · simp [hk]
  · simp [hk]

lemma storeWF_nil : storeWF [] := by
  constructor
  · intro p hp
    exact absurd hp (List.not_mem_nil p)
  · exact List.nodup_nil

lemma storeWF_saveMemo (s : MemoStore) (m : Memo) (h : storeWF s) :
    storeWF (saveMemo s m) := by
  obtain ⟨hkey, hnd⟩ := h
  by_cases hmem : (List.any s fun p => p.1 == m.id) = true
  · constructor
    · intro p hp
      unfold saveMemo storeSet at hp
      rw [if_pos hmem] at hp
      obtain ⟨q, hq, rfl⟩ := List.mem_map.mp hp
      by_cases hk : q.1 = m.id
      · simp [hk]
      · simp only [beq_iff_eq, hk, if_false]
        exact hkey q hq
    · show (List.map Prod.fst (saveMemo s m)).Nodup
      unfold saveMemo
      rw [map_fst_storeSet_of_mem s m.id m hmem]
      exact hnd
  · have hsave : saveMemo s m = s ++ [(m.id, m)] := by
      unfold saveMemo storeSet
      rw [if_neg hmem]
    rw [hsave]
    constructor
    · intro p hp
      rcases List.mem_append.mp hp with h1 | h1
      · exact hkey p h1
      · simp only [List.mem_singleton] at h1
        subst h1
        rfl
    · rw [List.map_append]
      rw [List.nodup_append]
      refine ⟨hnd, by simp, ?_⟩
      intro x hx hx'
      simp only [List.map_cons, List.map_nil, List.mem_singleton] at hx'
      subst hx'
      simp only [List.any_eq_true, beq_iff_eq] at hmem
      push_neg at hmem
      obtain ⟨q, hq, hqe⟩ := List.mem_map.mp hx
      exact hmem q hq hqe

lemma storeWF_foldl_saveMemo (ms : List Memo) (s : MemoStore)
    (h : storeWF s) : storeWF (List.foldl saveMemo s ms) := by
  induction ms generalizing s with
  | nil => exact h
  | cons m rest ih => exact ih _ (storeWF_saveMemo s m h)

lemma storeWF_runSaves (ms : List Memo) : storeWF (runSaves ms) :=
  storeWF_foldl_saveMemo ms [] storeWF_nil

lemma storeGet_foldl_saveMemo (ms : List Memo) (s : MemoStore)
    (id : String) :
    storeGet (List.foldl saveMemo s ms) id =
      match lastSave ms id with
      | some r => some r
      | none => storeGet s id := by
  induction ms generalizing s with
  | nil => rfl
  | cons m rest ih =>
    show storeGet (List.foldl saveMemo (saveMemo s m) rest) id = _
    rw [ih (saveMemo s m)]
    unfold saveMemo
    rw [storeGet_storeSet]
    by_cases hl : ∃ r, lastSave rest id = some r
    · obtain ⟨r, hr⟩ := hl
      simp [lastSave, hr]
    · push_neg at hl
      have hnone : lastSave rest id = none := by
        cases he : lastSave rest id with
        | none => rfl
        | some r => exact absurd he (hl r)
      by_cases hm : m.id = id
      · simp [lastSave, hnone, hm]
      · have : ¬ id = m.id := fun e => hm e.symm
        simp [lastSave, hnone, hm, this]

lemma storeGet_runSaves (ms : List Memo) (id : String) :
    storeGet (runSaves ms) id = lastSave ms id := by
  unfold runSaves
  rw [storeGet_foldl_saveMemo]
  cases h : lastSave ms id with
  | none => simp [storeGet]
  | some r => rfl

lemma lastSave_eq_some (ms : List Memo) (id : String) (m : Memo)
    (h : lastSave ms id = some m) : m.id = id ∧ m ∈ ms := by
  induction ms with
  | nil => simp [lastSave] at h
  | cons q rest ih =>
    unfold lastSave at h
    cases he : lastSave rest id with
    | some r =>
      rw [he] at h
      injection h with h'
      subst h'
      obtain ⟨h1, h2⟩ := ih he
      exact ⟨h1, List.mem_cons_of_mem q h2⟩
    | none =>
      rw [he] at h
      by_cases hq : q.id = id
      · simp only [beq_iff_eq, hq, if_true] at h
        injection h with h'
        exact ⟨h' ▸ hq, h' ▸ List.mem_cons_self q rest⟩
      · simp [hq] at h

lemma lastSave_isSome_iff (ms : List Memo) (id : String) :
    (lastSave ms id).isSome = true ↔ id ∈ List.map Memo.id ms := by
  induction ms with
  | nil => simp [lastSave]
  | cons q rest ih =>
    unfold lastSave
    cases he : lastSave rest id with
    | some r =>
      simp only [Option.isSome_some, true_iff]
      have := (ih.mp (by rw [he]; rfl))
      simp only [List.map_cons, List.mem_cons]
      exact Or.inr this
    | none =>
      by_cases hq : q.id = id
      · simp [hq]
      · have hnr : ¬ id ∈ List.map Memo.id rest := fun hmem => by
          have := ih.mpr hmem
          rw [he] at this
          simp at this
        have hne : ¬ id = q.id := fun e => hq e.symm
        simp [hq, hnr, hne]

lemma storeGet_eq_some_of_mem (s : MemoStore) (k : String) (m : Memo)
    (hnd : (List.map Prod.fst s).Nodup) (hm : (k, m) ∈ s) :
    storeGet s k = some m := by
  induction s with
  | nil => simp at hm
  | cons q t ih =>
    rcases List.mem_cons.mp hm with h1 | h1
    · subst h1
      simp [storeGet, List.find?_cons]
    · have hq : q.1 ≠ k := by
        intro he
        have hk : k ∈ List.map Prod.fst t :=
          List.mem_map.mpr ⟨(k, m), h1, rfl⟩
        rw [List.map_cons] at hnd
        exact (List.nodup_cons.mp hnd).1 (he ▸ hk)
      have := ih (List.nodup_cons.mp (List.map_cons Prod.fst q t ▸ hnd)).2 h1
      simpa [storeGet, List.find?_cons, hq] using this

lemma mem_of_storeGet_eq_some (s : MemoStore) (k : String) (m : Memo)
    (h : storeGet s k = some m) : (k, m) ∈ s := by
  unfold storeGet at h
  cases hf : List.find? (fun p => p.1 == k) s with
  | none => rw [hf] at h; simp at h
  | some p =>
    rw [hf] at h
    simp at h
    have hp := List.find?_some hf
    simp only [beq_iff_eq] at hp
    have hmem := List.mem_of_find?_eq_some hf
    have : p = (k, m) := by
      cases p
      simp_all
    exact this ▸ hmem

lemma mem_values_iff_storeGet (s : MemoStore) (m : Memo) (h : storeWF s) :
    m ∈ storeValues s ↔ storeGet s m.id = some m := by
  obtain ⟨hkey, hnd⟩ := h
  constructor
  · intro hm
    obtain ⟨p, hp, hpe⟩ := List.mem_map.mp hm
    have hpair : p = (m.id, m) := by
      have hk := hkey p hp
      cases p
      simp_all
    exact storeGet_eq_some_of_mem s m.id m hnd (hpair ▸ hp)
  · intro hg
    have := mem_of_storeGet_eq_some s m.id m hg
    exact List.mem_map.mpr ⟨(m.id, m), this, rfl⟩

lemma map_id_values_eq_keys (s : MemoStore)
    (hkey : ∀ p ∈ s, p.1 = p.2.id) :
    List.map Memo.id (storeValues s) = List.map Prod.fst s := by
  unfold storeValues
  rw [List.map_map]
  exact List.map_congr_left (fun p hp => (hkey p hp).symm)

/-- C2: replaying any sequence of `saveMemo` calls against the empty
store leaves exactly one record per distinct saved id — record ids are
unique, a record is in the store iff it is the last save under its id,
and an id has a record iff it was saved at least once. -/
theorem saveMemo_upsert_spec (ms : List Memo) :
    (List.map Memo.id (getAllMemos (runSaves ms))).Nodup ∧
    (∀ m : Memo, m ∈ getAllMemos (runSaves ms) ↔ lastSave ms m.id = some m) ∧
    (∀ id : String,
      (∃ m ∈ getAllMemos (runSaves ms), m.id = id) ↔
        id ∈ List.map Memo.id ms) := by
  have hwf := storeWF_runSaves ms
  refine ⟨?_, ?_, ?_⟩
  · have h2 := map_id_values_eq_keys (runSaves ms) hwf.1
    show (List.map Memo.id (storeValues (runSaves ms))).Nodup
    rw [h2]
    exact hwf.2
  · intro m
    have h1 := mem_values_iff_storeGet (runSaves ms) m hwf
    rw [storeGet_runSaves] at h1
    exact h1
  · intro id
    constructor
    · rintro ⟨m, hm, rfl⟩
      have h1 := (mem_values_iff_storeGet (runSaves ms) m hwf).mp hm
      rw [storeGet_runSaves] at h1
      exact (lastSave_isSome_iff ms m.id).mp (by rw [h1]; rfl)
    · intro hid
      have h1 := (lastSave_isSome_iff ms id).mpr hid
      obtain ⟨m, hm⟩ := Option.isSome_iff_exists.mp h1
      obtain ⟨hmid, _⟩ := lastSave_eq_some ms id m hm
      refine ⟨m, ?_, hmid⟩
      show m ∈ storeValues (runSaves ms)
      rw [mem_values_iff_storeGet (runSaves ms) m hwf, storeGet_runSaves,
        hmid]
      exact hm

/-- C1 witness: on the concrete store, the two tied records keep their
enumeration order in the sorted domain query. -/
theorem getMemosByDomain_spec_witness :
    List.Sublist [exMemoA, exMemoB] (getMemosByDomain exStore "example.com") :=
  (getMemosByDomain_spec exStore "example.com").2.2 exMemoA exMemoB
    (by decide) (by decide)

/-- C2 witness: the theorem applied to a concrete save sequence. -/
theorem saveMemo_upsert_spec_witness :
    (List.map Memo.id (getAllMemos (runSaves [exMemoA, exMemoB, exMemoA]))).Nodup :=
  (saveMemo_upsert_spec [exMemoA, exMemoB, exMemoA]).1

/-- C5: deleting an id removes it (a later lookup misses), deleting an
absent id leaves the store untouched rather than raising, and in either
case `getAllMemos` afterwards has no record with the deleted id (given
that entries are keyed by their record's id, as every write path
guarantees). -/
theorem deleteMemo_spec (s : MemoStore) (id : String) :
    storeGet (deleteMemo s id) id = none ∧
    (storeGet s id = none → deleteMemo s id = s) ∧
    ((∀ p ∈ s, p.1 = p.2.id) →
      ∀ m ∈ getAllMemos (deleteMemo s id), m.id ≠ id) := by
  refine ⟨?_, ?_, ?_⟩
  · rw [storeGet_eq_none_iff]
    rw [List.any_eq_false]
    intro p hp
    have := (List.mem_filter.mp hp).2
    simpa using this
  · intro h
    rw [storeGet_eq_none_iff] at h
    rw [List.any_eq_false] at h
    unfold deleteMemo storeDelete
    apply List.filter_eq_self.mpr
    intro p hp
    have := h p hp
    simpa using this
  · intro hkey m hm
    obtain ⟨p, hp, hpe⟩ := List.mem_map.mp hm
    have hpf := List.mem_filter.mp hp
    intro he
    have hpk : p.1 = id := by rw [hkey p hpf.1, hpe, he]
    have := hpf.2
    simp [hpk] at this

/-- C5 witness: deleting an absent id on the concrete store is a no-op,
and after deleting `"a"` no record with id `"a"` remains. -/
theorem deleteMemo_spec_witness :
    deleteMemo exStore "missing" = exStore ∧
      ∀ m ∈ getAllMemos (deleteMemo exStore "a"), m.id ≠ "a" :=
  ⟨(deleteMemo_spec exStore "missing").2.1 (by decide),
   (deleteMemo_spec exStore "a").2.2 (by decide)⟩

/-- C6: for a tab with a non-empty URL, when `n` records match the URL
exactly and `n > 0` the badge text is the decimal string of `n` with the
fixed positive color and the menu label is "Open Note for this Page";
when no record matches, the badge text is cleared and the label is
"Create Note for this Page". -/
theorem updateBadgeAndMenu_spec (s : MemoStore) (url : String)
    (h : url ≠ "") :
    (0 < (List.filter (fun m => m.url == url) (storeValues s)).length →
      updateBadgeAndMenu s url =
        some
          (toString
              (List.filter (fun m => m.url == url) (storeValues s)).length,
            some "#22c55e", "Open Note for this Page")) ∧
    ((List.filter (fun m => m.url == url) (storeValues s)).length = 0 →
      updateBadgeAndMenu s url =
        some ("", none, "Create Note for this Page")) := by
  have hurl : url.isEmpty = false := isEmpty_eq_false_of_ne url h
  constructor
  · intro hn
    simp [updateBadgeAndMenu, hurl, hn]
  · intro hn
    simp [updateBadgeAndMenu, hurl, hn]

/-- C6 witness: on the concrete store, the URL of `exMemoA` matches one
record, so the badge shows "1" and the menu offers to open the note. -/
theorem updateBadgeAndMenu_spec_witness :
    updateBadgeAndMenu exStore "https://example.com/a" =
      some
        (toString
            (List.filter (fun m => m.url == "https://example.com/a")
                (storeValues exStore)).length,
          some "#22c55e", "Open Note for this Page") :=
  (updateBadgeAndMenu_spec exStore "https://example.com/a"
      (by decide)).1 (by decide)

lemma importMemos_foldl_aux (now : Nat) (json : List RawMemo)
    (s : MemoStore) (n : Nat) :
    List.foldl
        (fun (acc : MemoStore × Nat) m =>
          if rawValid m then (saveMemo acc.1 (sanitizeRaw now m), acc.2 + 1)
          else acc)
        (s, n) json =
      (List.foldl saveMemo s
          (List.map (sanitizeRaw now)
            (List.filter (fun m => rawValid m) json)),
        n + (List.filter (fun m => rawValid m) json).length) := by
  induction json generalizing s n with
  | nil => simp
  | cons r rest ih =>
    rw [List.foldl_cons, List.filter_cons]
    by_cases hv : rawValid r = true
    · rw [if_pos hv, if_pos hv]
      rw [ih]
      simp only [List.map_cons, List.foldl_cons, List.length_cons]
      congr 1
      omega
    · rw [if_neg hv, if_neg hv]
      exact ih s n

lemma importMemos_eq (now : Nat) (json : List RawMemo) (s : MemoStore) :
    importMemos now json s =
      (List.foldl saveMemo s
          (List.map (sanitizeRaw now)
            (List.filter (fun m => rawValid m) json)),
        (List.filter (fun m => rawValid m) json).length) := by
  unfold importMemos
  have h := importMemos_foldl_aux now json s 0
  simpa using h

lemma length_foldl_saveMemo (ms : List Memo) (s : MemoStore)
    (hfresh : ∀ m ∈ ms, storeGet s m.id = none)
    (hnd : (List.map Memo.id ms).Nodup) :
    (List.foldl saveMemo s ms).length = s.length + ms.length := by
  induction ms generalizing s with
  | nil => simp
  | cons m rest ih =>
    rw [List.foldl_cons]
    have hm := hfresh m (List.mem_cons_self m rest)
    have hany := (storeGet_eq_none_iff s m.id).mp hm
    have hsave : saveMemo s m = s ++ [(m.id, m)] := by
      unfold saveMemo storeSet
      rw [if_neg (by simp [hany])]
    have hfresh' : ∀ m' ∈ rest, storeGet (saveMemo s m) m'.id = none := by
      intro m' hm'
      rw [saveMemo, storeGet_storeSet]
      have hne : m'.id ≠ m.id := by
        rw [List.map_cons, List.nodup_cons] at hnd
        intro he
        exact hnd.1 (he ▸ List.mem_map.mpr ⟨m', hm', rfl⟩)
      rw [if_neg hne]
      exact hfresh m' (List.mem_cons_of_mem m hm')
    have hnd' : (List.map Memo.id rest).Nodup := by
      rw [List.map_cons, List.nodup_cons] at hnd
      exact hnd.2
    rw [ih (saveMemo s m) hfresh' hnd', hsave]
    simp
    omega

/-- C4: every import element whose `id`, `domain`, `content` are strings
is upserted after coercing the remaining fields (see `sanitizeRaw`),
every other element is skipped without aborting the batch, the reported
count is the number of elements that passed validation and were saved,
and — when the saved elements have distinct ids, importing into an empty
store — the number of persisted records equals that count; in
particular one valid element together with one element missing `domain`
persists exactly one record. -/
theorem handleImportFile_spec (now : Nat) (json : List RawMemo) :
    (∀ s : MemoStore,
      importMemos now json s =
        (List.foldl saveMemo s
            (List.map (sanitizeRaw now)
              (List.filter (fun m => rawValid m) json)),
          (List.filter (fun m => rawValid m) json).length)) ∧
    ((List.map Memo.id
          (List.map (sanitizeRaw now)
            (List.filter (fun m => rawValid m) json))).Nodup →
      (importMemos now json []).1.length = (importMemos now json []).2) ∧
    (∀ r1 r2 : RawMemo, rawValid r1 = true → r2.domain = none →
      (importMemos now [r1, r2] []).1 =
          [((sanitizeRaw now r1).id, sanitizeRaw now r1)] ∧
        (importMemos now [r1, r2] []).2 = 1) := by
  refine ⟨importMemos_eq now json, ?_, ?_⟩
  · intro hnd
    rw [importMemos_eq]
    simp only
    rw [length_foldl_saveMemo _ [] (fun m _ => rfl) hnd]
    simp
  · intro r1 r2 h1 h2
    have hv2 : rawValid r2 = false := by
      unfold rawValid
      rw [h2]
      simp
    constructor
    · simp [importMemos, h1, hv2, saveMemo, storeSet]
    · simp [importMemos, h1, hv2]

/-- C4 witness: importing one valid element and one element missing
`domain` persists exactly the sanitized valid element and reports one
success. -/
theorem handleImportFile_spec_witness :
    (importMemos 7 [rawGood, rawNoDomain] []).1 =
        [((sanitizeRaw 7 rawGood).id, sanitizeRaw 7 rawGood)] ∧
      (importMemos 7 [rawGood, rawNoDomain] []).2 = 1 :=
  (handleImportFile_spec 7 [rawGood, rawNoDomain]).2.2 rawGood rawNoDomain
    (by decide) rfl

lemma sanitizeRaw_memoToRaw (now : Nat) (m : Memo) (h : m.title ≠ "") :
    sanitizeRaw now (memoToRaw m) = m := by
  cases m with
  | mk id title content domain url isU c u =>
    simp only [Memo.title] at h
    simp [sanitizeRaw, memoToRaw, jsOrString,
      isEmpty_eq_false_of_ne title h]

lemma lastSave_eq_find?_of_nodup (l : List Memo) (id : String)
    (hnd : (List.map Memo.id l).Nodup) :
    lastSave l id = List.find? (fun m => m.id == id) l := by
  induction l with
  | nil => rfl
  | cons m rest ih =>
    rw [List.map_cons, List.nodup_cons] at hnd
    by_cases hm : m.id = id
    · have hnone : lastSave rest id = none := by
        cases he : lastSave rest id with
        | none => rfl
        | some r =>
          obtain ⟨hrid, hrmem⟩ := lastSave_eq_some _ _ _ he
          exact absurd (List.mem_map.mpr ⟨r, hrmem, hrid⟩) (hm ▸ hnd.1)
      unfold lastSave
      rw [hnone, List.find?_cons]
      simp [hm]
    · have hbm : (m.id == id) = false := by simp [hm]
      have hrest := ih hnd.2
      unfold lastSave
      rw [List.find?_cons, hbm, ← hrest]
      cases he : lastSave rest id <;> simp [he]

lemma find?_values_eq_storeGet (s : MemoStore) (id : String)
    (hkey : ∀ p ∈ s, p.1 = p.2.id) :
    List.find? (fun m => m.id == id) (storeValues s) = storeGet s id := by
  induction s with
  | nil => rfl
  | cons p t ih =>
    have hkeyt : ∀ q ∈ t, q.1 = q.2.id :=
      fun q hq => hkey q (List.mem_cons_of_mem p hq)
    show List.find? _ (p.2 :: storeValues t) = _
    rw [List.find?_cons]
    have hp : (p.2.id == id) = (p.1 == id) := by
      rw [hkey p (List.mem_cons_self p t)]
    rw [hp]
    unfold storeGet
    rw [List.find?_cons]
    cases hc : (p.1 == id) with
    | true => simp
    | false => exact ih hkeyt

lemma storeGet_roundTrip (now : Nat) (s : MemoStore) (id : String)
    (hwf : storeWF s) (ht : ∀ m ∈ getAllMemos s, m.title ≠ "") :
    storeGet (exportImportRoundTrip now s) id = storeGet s id := by
  unfold exportImportRoundTrip exportMemos
  rw [importMemos_eq]
  simp only
  have hvalid :
      List.filter (fun m => rawValid m)
          (List.map memoToRaw (getAllMemos s)) =
        List.map memoToRaw (getAllMemos s) := by
    apply List.filter_eq_self.mpr
    intro r hr
    obtain ⟨m, hm, rfl⟩ := List.mem_map.mp hr
    simp [rawValid, memoToRaw]
  rw [hvalid, List.map_map]
  have hmapsan :
      List.map (sanitizeRaw now ∘ memoToRaw) (getAllMemos s) =
        getAllMemos s := by
    have h1 : List.map (sanitizeRaw now ∘ memoToRaw) (getAllMemos s) =
        List.map (fun m => m) (getAllMemos s) :=
      List.map_congr_left
        (fun m hm => sanitizeRaw_memoToRaw now m (ht m hm))
    rw [h1]
    simp
  rw [hmapsan]
  show storeGet (runSaves (storeValues s)) id = storeGet s id
  rw [storeGet_runSaves]
  rw [lastSave_eq_find?_of_nodup _ id
    (by rw [map_id_values_eq_keys s hwf.1]; exact hwf.2)]
  exact find?_values_eq_storeGet s id hwf.1

/-- C3 counterexample: on a store whose single record has every field
populated with the right type but `title = ""`, the export/import round
trip does not reproduce the original id-to-record mapping — the
re-imported record's title is `"Untitled"` because import coerces the
title by JavaScript truthiness. -/
theorem exportImport_counterexample :
    storeGet (exportImportRoundTrip 0 emptyTitleStore) "a" ≠
      storeGet emptyTitleStore "a" := by decide

/-- C3 (amended): for every well-formed store whose records all have
fully-populated fields and a non-empty title, exporting and re-importing
into an empty store reproduces the original id-to-record mapping. -/
theorem exportImport_roundTrip_amended (now : Nat) (s : MemoStore)
    (hwf : storeWF s) (ht : ∀ m ∈ getAllMemos s, m.title ≠ "") :
    ∀ id, storeGet (exportImportRoundTrip now s) id = storeGet s id :=
  fun id => storeGet_roundTrip now s id hwf ht

/-- C3 witness: the round trip reproduces the concrete two-record store
(whose titles are non-empty) at both ids and at a missing id. -/
theorem exportImport_roundTrip_amended_witness :
    storeGet (exportImportRoundTrip 3 exStore) "a" = storeGet exStore "a" ∧
      storeGet (exportImportRoundTrip 3 exStore) "b" = storeGet exStore "b" :=
  ⟨exportImport_roundTrip_amended 3 exStore (by decide) (by decide) "a",
   exportImport_roundTrip_amended 3 exStore (by decide) (by decide) "b"⟩

lemma mem_values_storeSet (s : MemoStore) (k : String) (v x : Memo)
    (hx : x ∈ storeValues (storeSet s k v)) :
    x = v ∨ x ∈ storeValues s := by
  unfold storeSet at hx
  by_cases hmem : (List.any s fun p => p.1 == k) = true
  · rw [if_pos hmem] at hx
    unfold storeValues at hx
    rw [List.map_map] at hx
    obtain ⟨q, hq, hqe⟩ := List.mem_map.mp hx
    by_cases hk : q.1 = k
    · left
      rw [← hqe]
      simp [hk]
    · right
      rw [← hqe]
      simp only [Function.comp, beq_iff_eq, hk, if_false]
      exact List.mem_map.mpr ⟨q, hq, rfl⟩
  · rw [if_neg hmem] at hx
    unfold storeValues at hx
    rw [List.map_append] at hx
    rcases List.mem_append.mp hx with h | h
    · right
      exact h
    · left
      simpa using h

lemma storeInvariant_saveMemo (s : MemoStore) (m : Memo)
    (hwf : storeWF s) (hinv : storeInvariant s) (hm : memoInvariant m) :
    storeInvariant (saveMemo s m) := by
  have hwf' := storeWF_saveMemo s m hwf
  constructor
  · rw [map_id_values_eq_keys _ hwf'.1]
    exact hwf'.2
  · intro x hx
    rcases mem_values_storeSet s m.id m x hx with h | h
    · exact h ▸ hm
    · exact hinv.2 x h

/-- C7 counterexample: the import operation accepts an element whose
`domain` is the empty string (the `typeof` check only requires a
string), so after an import from the empty store a persisted record
violates the invariant that `domain` is never empty. -/
theorem storeInvariant_counterexample :
    ¬ storeInvariant (importMemos 0 [badDomainRaw] []).1 := by decide

/-- C7 (amended): on a well-formed store satisfying the invariant, the
records persisted by `createMemo` (with a non-empty fresh id and a
non-decreasing clock) and by the title/content edit-commit paths keep
the store invariant; the import path guarantees only string-typed
`id`, `domain`, `content` and may persist records with empty id or
domain or with `updatedAt < createdAt`. -/
theorem storeInvariant_amended (s : MemoStore) (hwf : storeWF s)
    (hinv : storeInvariant s) :
    (∀ domain url title : Option String, ∀ formattedDate newId : String,
      ∀ tc tu : Nat, newId ≠ "" → tc ≤ tu →
      ∀ s' : MemoStore, ∀ m : Memo,
        createMemo domain url title formattedDate newId tc tu s =
          (s', some m) →
        storeInvariant s') ∧
    (∀ m ∈ getAllMemos s, ∀ t : String, ∀ now : Nat, m.updatedAt ≤ now →
      storeInvariant (saveMemo s (handleTitleChange m t now))) ∧
    (∀ m ∈ getAllMemos s, ∀ c : String, ∀ now : Nat, m.updatedAt ≤ now →
      storeInvariant (saveMemo s (handleContentChange m c now))) := by
  refine ⟨?_, ?_, ?_⟩
  · intro domain url title fd newId tc tu hid htu s' m heq
    unfold createMemo at heq
    by_cases hg : (!jsTruthy domain || !jsTruthy url) = true
    · rw [if_pos hg] at heq
      injection heq with h1 h2
      simp at h2
    · rw [if_neg hg] at heq
      injection heq with h1 h2
      have hd : jsTruthy domain = true := by
        cases hjd : jsTruthy domain
        · exact absurd (by simp [hjd]) hg
        · rfl
      rw [← h1]
      apply storeInvariant_saveMemo s _ hwf hinv
      refine ⟨hid, htu, ?_⟩
      cases domain with
      | none => simp [jsTruthy] at hd
      | some d =>
        have hde : d.isEmpty = false := by simpa [jsTruthy] using hd
        show Option.getD (some d) "" ≠ ""
        simp only [Option.getD_some]
        intro he
        rw [he] at hde
        exact absurd hde (by decide)
  · intro m hm t now hle
    apply storeInvariant_saveMemo s _ hwf hinv
    have hminv := hinv.2 m hm
    exact ⟨hminv.1, le_trans hminv.2.1 hle, hminv.2.2⟩
  · intro m hm c now hle
    apply storeInvariant_saveMemo s _ hwf hinv
    have hminv := hinv.2 m hm
    exact ⟨hminv.1, le_trans hminv.2.1 hle, hminv.2.2⟩

/-- C7 witness: committing a title edit of the concrete record keeps the
invariant on the concrete store. -/
theorem storeInvariant_amended_witness :
    storeInvariant (saveMemo exStore (handleTitleChange exMemoA "T2" 9)) :=
  (storeInvariant_amended exStore (by decide) (by decide)).2.1 exMemoA
    (by decide) "T2" 9 (by decide)

lemma debounceRun_pending (edits : List (Nat × Memo)) :
    ∀ t : Nat, ∀ m : Memo,
      debounceRun (some (t + 1000, m)) edits =
        quiescentSaves ((t, m) :: edits) := by
  induction edits with
  | nil =>
    intro t m
    rfl
  | cons e rest ih =>
    intro t m
    obtain ⟨u, w⟩ := e
    show debounceRun (some (t + 1000, m)) ((u, w) :: rest) = _
    simp only [debounceRun, quiescentSaves]
    by_cases h : t + 1000 ≤ u
    · rw [if_pos h, if_pos h, ih]
    · rw [if_neg h, if_neg h, ih]

/-- C8: the debounced autosave issues exactly one save per quiescence
period — an edit's save fires, carrying that edit's state, 1000 ms after
it, precisely when no further edit arrives within 1000 ms (at most one
timer is pending at any point, a new edit superseding the old timer by
construction of the state); in particular edits at t = 0 and t = 500
produce exactly one save, of the second edit's state, at t = 1500. -/
theorem updateMemo_debounce_spec :
    (∀ edits : List (Nat × Memo),
      debounceSaves edits = quiescentSaves edits) ∧
    (∀ m1 m2 : Memo,
      debounceSaves [(0, m1), (500, m2)] = [(1500, m2)]) := by
  have hgen : ∀ edits : List (Nat × Memo),
      debounceSaves edits = quiescentSaves edits := by
    intro edits
    cases edits with
    | nil => rfl
    | cons e rest =>
      obtain ⟨t, m⟩ := e
      show debounceRun none ((t, m) :: rest) = _
      simp only [debounceRun]
      exact debounceRun_pending rest t m
  refine ⟨hgen, ?_⟩
  intro m1 m2
  rw [hgen]
  simp [quiescentSaves]

lemma fetchList_pairwise (vm : ViewMode) (domain : Option String)
    (s : MemoStore) :
    List.Pairwise (fun a b => b.updatedAt ≤ a.updatedAt)
      (fetchList vm domain s) := by
  cases vm with
  | all => exact pairwise_updatedDesc_of_mergeSort _
  | domainScoped =>
    cases domain with
    | none => simp [fetchList]
    | some d =>
      by_cases hd : d.isEmpty
      · simp [fetchList, hd]
      · show List.Pairwise _ (if d.isEmpty then [] else getMemosByDomain s d)
        rw [if_neg hd]
        exact pairwise_updatedDesc_of_mergeSort _

/-- C9: on a refresh with no current selection and a non-empty result,
the record at index 0 becomes selected and it is most recent (every
fetched record's `updatedAt` is at most the head's); with a selected
non-empty id the refresh leaves the selected id unchanged, and the
derived selection becomes absent exactly when no record in the refreshed
list carries that id. -/
theorem selection_policy_spec :
    (∀ st : PanelState, ∀ m0 : Memo, ∀ rest : List Memo,
      st.activeMemoId = none →
      (refreshPanel st (m0 :: rest)).activeMemoId = some m0.id) ∧
    (∀ vm : ViewMode, ∀ domain : Option String, ∀ s : MemoStore,
      ∀ m0 : Memo, ∀ rest : List Memo,
      fetchList vm domain s = m0 :: rest →
      ∀ m ∈ fetchList vm domain s, m.updatedAt ≤ m0.updatedAt) ∧
    (∀ st : PanelState, ∀ loaded : List Memo, ∀ aid : String,
      st.activeMemoId = some aid → aid ≠ "" →
      (refreshPanel st loaded).activeMemoId = some aid) ∧
    (∀ st : PanelState, ∀ loaded : List Memo, ∀ aid : String,
      st.activeMemoId = some aid → aid ≠ "" →
      (∀ m ∈ loaded, m.id ≠ aid) →
      activeMemo (refreshPanel st loaded) = none) := by
  have hkeep : ∀ st : PanelState, ∀ loaded : List Memo, ∀ aid : String,
      st.activeMemoId = some aid → aid ≠ "" →
      (refreshPanel st loaded).activeMemoId = some aid := by
    intro st loaded aid ha hne
    cases loaded with
    | nil => exact ha
    | cons m0 rest =>
      show (if jsFalsyId st.activeMemoId then some m0.id
        else st.activeMemoId) = some aid
      rw [ha]
      have : jsFalsyId (some aid) = false := by
        simpa [jsFalsyId] using isEmpty_eq_false_of_ne aid hne
      rw [this]
      simp
  refine ⟨?_, ?_, hkeep, ?_⟩
  · intro st m0 rest h
    show (if jsFalsyId st.activeMemoId then some m0.id
      else st.activeMemoId) = some m0.id
    rw [h]
    rfl
  · intro vm domain s m0 rest he m hm
    have hp := fetchList_pairwise vm domain s
    rw [he] at hp hm
    rcases List.mem_cons.mp hm with h | h
    · exact le_of_eq (congrArg Memo.updatedAt h)
    · exact (List.pairwise_cons.mp hp).1 m h
  · intro st loaded aid ha hne hmiss
    have hid := hkeep st loaded aid ha hne
    unfold activeMemo
    rw [hid]
    simp only [refreshPanel]
    apply List.find?_eq_none.mpr
    intro m hm
    simpa using hmiss m hm

/-- C9 witness: with no selection and a one-record result, the record at
index 0 becomes selected. -/
theorem selection_policy_spec_witness :
    (refreshPanel ⟨[], none⟩ [exMemoA]).activeMemoId = some exMemoA.id :=
  selection_policy_spec.1 ⟨[], none⟩ exMemoA [] rfl

/-- C10: an import element whose `title` is present but empty is
persisted with title "Untitled" (the coercion `m.title || 'Untitled'`
tests truthiness, not presence), and no record produced by the import
coercion ever carries an empty title — import cannot preserve
empty-string titles. -/
theorem import_title_truthiness (now : Nat) (raw : RawMemo)
    (h : raw.title = some "") :
    (sanitizeRaw now raw).title = "Untitled" ∧
    (∀ r : RawMemo, (sanitizeRaw now r).title ≠ "") := by
  constructor
  · have h1 : (sanitizeRaw now raw).title = jsOrString raw.title "Untitled" :=
      rfl
    rw [h1, h]
    decide
  · intro r
    have h1 : (sanitizeRaw now r).title = jsOrString r.title "Untitled" :=
      rfl
    rw [h1]
    cases ht : r.title with
    | none => simp [jsOrString]
    | some t =>
      by_cases hte : t.isEmpty = true
      · simp [jsOrString, hte]
      · simp only [jsOrString, Bool.not_eq_true] at hte ⊢
        rw [if_neg (by simp [hte])]
        intro he
        rw [he] at hte
        exact absurd hte (by decide)

/-- C10 witness: the record with an empty title passes through the
sanitizing coercion with title "Untitled". -/
theorem import_title_truthiness_witness :
    (sanitizeRaw 0 (memoToRaw emptyTitleMemo)).title = "Untitled" :=
  (import_title_truthiness 0 (memoToRaw emptyTitleMemo) rfl).1
